import Mathlib

/-!
Verification of the share_p2p room / file-transfer client and its discovery
registry. The definitions below are a shallow embedding of the TypeScript
source: the Room component's message handler and sender loop, and the
Next.js route handlers for `/api/rooms/[roomId]/peers`. Byte buffers are
modelled as `List Nat`, JavaScript `Map`s as association lists in insertion
order, and JavaScript number division (for percentages) as rational
arithmetic.
-/

namespace ShareP2P

/-- Constant `CHUNK_SIZE = 65536` (64 KiB), from the Room component. -/
def CHUNK_SIZE : Nat := 65536

/-- Structure `FileMetadata` from the Room component. -/
structure FileMetadata where
  name : String
  size : Nat
  type : String
  senderId : String
  senderName : String
  fileId : String
deriving DecidableEq, Repr

/-- Structure `RoomUser = {peerId, name}`. -/
structure RoomUser where
  peerId : String
  name : String
deriving DecidableEq, Repr

/-- The `PeerData` discriminated union sent over data channels.
`endMsg` models the `end` variant (`end` is a Lean keyword). -/
inductive PeerData where
  | join (payload : RoomUser)
  | userList (payload : List RoomUser)
  | userJoined (payload : RoomUser)
  | userLeft (peerId : String)
  | metadata (payload : FileMetadata)
  | chunk (payload : List Nat) (index : Nat) (totalChunks : Nat) (fileId : String)
  | endMsg (fileId : String)
deriving DecidableEq, Repr

/-- Structure `ReceivedFile` from the Room component. `downloadUrl` holds the content
of the Blob built at `end` (the object URL's target), `none` before that. -/
structure ReceivedFile where
  metadata : FileMetadata
  progress : ℚ
  chunks : List (List Nat)
  receivedSize : Nat
  downloadUrl : Option (List Nat)
  completed : Bool
  toastShown : Option Bool
  timestamp : Nat
  completedAt : Option Nat
deriving DecidableEq, Repr

/-- A data connection as the Room component sees it: its remote peer id and
whether it is open. -/
structure Conn where
  peerId : String
  isOpen : Bool
deriving DecidableEq, Repr

/-- JavaScript `Map.get` on a map embedded as an association list in
insertion order. -/
def mapGet {α : Type} (m : List (String × α)) (k : String) : Option α :=
  (m.find? (fun p => p.1 == k)).map Prod.snd

/-- JavaScript `Map.set`: update in place when the key is present
(insertion order kept), append otherwise. -/
def mapSet {α : Type} (m : List (String × α)) (k : String) (v : α) :
    List (String × α) :=
  if m.any (fun p => p.1 == k) then
    m.map (fun p => if p.1 == k then (k, v) else p)
  else
    m ++ [(k, v)]

/-- JavaScript `Map.delete`. -/
def mapDelete {α : Type} (m : List (String × α)) (k : String) :
    List (String × α) :=
  m.filter (fun p => !(p.1 == k))

/-- The `readSlice` loop of `sendSingleFile`: slice `CHUNK_SIZE` bytes at
`offset`, emit the chunk, advance by the chunk's `byteLength`, stop once
`offset < file.size` fails. Returns the chunks in send order. -/
def readChunks (bytes : List Nat) (o : Nat) : List (List Nat) :=
  if o + ((bytes.drop o).take CHUNK_SIZE).length < bytes.length then
    ((bytes.drop o).take CHUNK_SIZE) :: readChunks bytes (o + ((bytes.drop o).take CHUNK_SIZE).length)
  else
    [(bytes.drop o).take CHUNK_SIZE]
termination_by bytes.length - o
decreasing_by
  simp only [List.length_take, List.length_drop, CHUNK_SIZE] at *
  omega

/-- The local state of the Room component that the protocol handlers
mutate: the roster, the open data connections and the received-files map. -/
structure RoomState where
  users : List RoomUser
  connections : List Conn
  receivedFiles : List (String × ReceivedFile)
deriving DecidableEq, Repr

/-- Function `broadcastToOthers`: send `data` on every open connection whose peer id
differs from `excludePeerId`; returns the (destination, message) pairs. -/
def broadcastToOthers (conns : List Conn) (data : PeerData)
    (excludePeerId : Option String) : List (String × PeerData) :=
  conns.filterMap (fun c =>
    if !(some c.peerId == excludePeerId) && c.isOpen then
      some (c.peerId, data)
    else none)

/-- The fresh `ReceivedFile` that the `metadata` branch of `handleData`
stores for a previously unseen `fileId`. -/
def freshFile (md : FileMetadata) (now : Nat) : ReceivedFile :=
  { metadata := md, progress := 0, chunks := [], receivedSize := 0,
    downloadUrl := none, completed := false, toastShown := none,
    timestamp := now, completedAt := none }

/-- The `updatedFile` update of the `chunk` branch of `handleData`: append
the chunk, bump the byte count, recompute the percentage. -/
def chunkStep (file : ReceivedFile) (payload : List Nat) : ReceivedFile :=
  { file with
    chunks := file.chunks ++ [payload],
    receivedSize := file.receivedSize + payload.length,
    progress := ((file.receivedSize + payload.length : ℚ)
      / file.metadata.size) * 100 }

/-- The sealing update of the `end` branch of `handleData`: build the Blob
from the accumulated chunks, force the percentage to 100, mark complete. -/
def sealFile (file : ReceivedFile) (now : Nat) : ReceivedFile :=
  { file with
    downloadUrl := some file.chunks.flatten,
    completed := true,
    progress := 100,
    completedAt := some now }

/-- The Room component's `handleData` message handler. `self` is
`myPeerIdRef.current` (null before the peer opens) and `now` stands for
`Date.now()`. Connection initiation triggered by `user-joined`
(`connectToPeerRef`) is an external effect and adds no local state here. -/
def handleData (self : Option String) (now : Nat) (data : PeerData)
    (st : RoomState) : RoomState :=
  match data with
  | .join newUser =>
      if (st.users.find? (fun u => u.peerId == newUser.peerId)).isSome then st
      else { st with users := st.users ++ [newUser] }
  | .userList payload =>
      let userList := payload.filter (fun u => !(some u.peerId == self))
      let merged :=
        userList.foldl (fun m u => mapSet m u.peerId u)
          (st.users.foldl (fun m u => mapSet m u.peerId u) [])
      { st with users := merged.map Prod.snd }
  | .userJoined newUser =>
      if (st.users.find? (fun u => u.peerId == newUser.peerId)).isSome then st
      else { st with users := st.users ++ [newUser] }
  | .userLeft pid =>
      { st with
        users := st.users.filter (fun u => !(u.peerId == pid)),
        connections := st.connections.filter (fun c => !(c.peerId == pid)) }
  | .metadata md =>
      match mapGet st.receivedFiles md.fileId with
      | some _ =>
          -- duplicate metadata: completed transfers are explicitly ignored,
          -- and for an incomplete existing entry the handler changes nothing
          st
      | none =>
          { st with receivedFiles :=
              mapSet st.receivedFiles md.fileId (freshFile md now) }
  | .chunk payload _ _ fileId =>
      match mapGet st.receivedFiles fileId with
      | some file =>
          if file.completed then st
          else
            { st with receivedFiles :=
                mapSet st.receivedFiles fileId (chunkStep file payload) }
      | none => st
  | .endMsg fileId =>
      match mapGet st.receivedFiles fileId with
      | some file =>
          if file.completed then st
          else
            { st with receivedFiles :=
                mapSet st.receivedFiles fileId (sealFile file now) }
      | none => st

/-- Process a list of incoming messages in order. -/
def runMessages (self : Option String) (now : Nat) (msgs : List PeerData)
    (st : RoomState) : RoomState :=
  msgs.foldl (fun s m => handleData self now m s) st

/-- The message sequence `sendSingleFile` emits for one file: the
`metadata` announcement, one `chunk` per 64 KiB slice in order (the code
always sends `index = 0`, `totalChunks = 0`), then the `end` marker. -/
def senderMessages (md : FileMetadata) (bytes : List Nat) : List PeerData :=
  PeerData.metadata md
    :: ((readChunks bytes 0).map (fun c => PeerData.chunk c 0 0 md.fileId)
      ++ [PeerData.endMsg md.fileId])

/-- Function `handleLeaveRoom`: if `myPeerIdRef.current` is set, broadcast
`user-left` for self to every open connection, then `await` the registry
DELETE; only when that succeeds (`deleteOk`) are the connections closed and
cleared and the local state reset — a rejected fetch jumps to the `catch`
block, which only shows a toast and leaves connections and roster as they
were. Returns the new state and the broadcast (destination, message)
pairs. -/
def handleLeaveRoom (st : RoomState) (myPeerId : Option String)
    (deleteOk : Bool) : RoomState × List (String × PeerData) :=
  match myPeerId with
  | none => (st, [])
  | some pid =>
      if pid == "" then (st, [])
      else
        let sent := broadcastToOthers st.connections (PeerData.userLeft pid) none
        if deleteOk then
          ({ users := [], connections := [], receivedFiles := [] }, sent)
        else (st, sent)

/-! ## Discovery registry (`/api/rooms/[roomId]/peers` route handlers) -/

/-- Structure `PeerEntry` from the route module. `updatedAt` is a millisecond
timestamp. -/
structure PeerEntry where
  peerId : String
  name : String
  updatedAt : Nat
deriving DecidableEq, Repr

/-- Type `Registry = Map<string, Map<string, PeerEntry>>`: room id to peer id to
entry, both maps in insertion order. -/
abbrev Registry : Type := List (String × List (String × PeerEntry))

/-- JavaScript string truthiness for an optional request field: `!x` holds
when the field is absent or the empty string. -/
def strFalsy : Option String → Bool
  | none => true
  | some s => s == ""

/-- A route response: HTTP 400, or 200 with the peers array. -/
inductive ApiResp where
  | badRequest
  | ok (peers : List PeerEntry)
deriving DecidableEq, Repr

/-- Function `pruneRoom`: drop every entry of the room older than one hour
(`now - entry.updatedAt > 1000 * 60 * 60`), then delete the room itself if
its peer map became empty. -/
def pruneRoom (reg : Registry) (roomId : String) (now : Nat) : Registry :=
  match mapGet reg roomId with
  | none => reg
  | some roomPeers =>
      let pruned := roomPeers.filter
        (fun p => !(decide (now - p.2.updatedAt > 1000 * 60 * 60)))
      if pruned.isEmpty then mapDelete reg roomId
      else mapSet reg roomId pruned

/-- Handler `GET /rooms/{roomId}/peers`: prune, then answer with the room's entries
(empty when the room is absent). Returns the updated registry and the
response body. -/
def getPeers (reg : Registry) (roomId : String) (now : Nat) :
    Registry × List PeerEntry :=
  let reg' := pruneRoom reg roomId now
  (reg', ((mapGet reg' roomId).getD []).map Prod.snd)

/-- Handler `POST /rooms/{roomId}/peers`: 400 when `peerId` or `name` is falsy;
otherwise upsert the entry with a fresh `updatedAt` and answer with the
room's entries. -/
def postPeers (reg : Registry) (roomId : String)
    (peerId name : Option String) (now : Nat) : Registry × ApiResp :=
  if strFalsy peerId || strFalsy name then (reg, .badRequest)
  else
    let pid := peerId.getD ""
    let nm := name.getD ""
    let roomPeers := (mapGet reg roomId).getD []
    let roomPeers' := mapSet roomPeers pid ⟨pid, nm, now⟩
    let reg' := mapSet reg roomId roomPeers'
    (reg', .ok (roomPeers'.map Prod.snd))

/-- Handler `DELETE /rooms/{roomId}/peers`: 400 when `peerId` is falsy; otherwise
remove the entry, delete the room if it became empty, and answer with the
room's entries as re-read from the registry. -/
def deletePeers (reg : Registry) (roomId : String) (peerId : Option String) :
    Registry × ApiResp :=
  if strFalsy peerId then (reg, .badRequest)
  else
    let pid := peerId.getD ""
    let reg' :=
      match mapGet reg roomId with
      | none => reg
      | some roomPeers =>
          let roomPeers' := mapDelete roomPeers pid
          if roomPeers'.isEmpty then mapDelete reg roomId
          else mapSet reg roomId roomPeers'
    (reg', .ok (((mapGet reg' roomId).getD []).map Prod.snd))

/-- The `fileId` carried by a file-transfer message (`metadata`, `chunk`
or `end`); `none` for membership messages. -/
def msgFileId : PeerData → Option String
  | .metadata md => some md.fileId
  | .chunk _ _ _ fid => some fid
  | .endMsg fid => some fid
  | _ => none

/-- The percent-complete the UI reports for `fileId`: the stored
`progress` of its `ReceivedFile`, or 0 when no transfer exists yet. -/
def reportedProgress (st : RoomState) (fid : String) : ℚ :=
  ((mapGet st.receivedFiles fid).map ReceivedFile.progress).getD 0

/-- No room of the registry maps to an empty peer map. -/
def noEmptyRooms (reg : Registry) : Prop := ∀ p ∈ reg, p.2 ≠ []

/-! ## Chunking lemmas -/

/-- Concatenating the chunks read from offset `o` restores the bytes from
offset `o` onward. -/
theorem readChunks_flatten (bytes : List Nat) (o : Nat) :
    (readChunks bytes o).flatten = bytes.drop o := by
  induction o using readChunks.induct bytes with
  | case1 o h ih =>
    have hlen : ((bytes.drop o).take CHUNK_SIZE).length = CHUNK_SIZE := by
      simp only [List.length_take, List.length_drop]
      simp only [List.length_take, List.length_drop] at h
      omega
    have hdd : List.drop (o + CHUNK_SIZE) bytes
        = List.drop CHUNK_SIZE (List.drop o bytes) := by
      rw [List.drop_drop, Nat.add_comm]
    rw [readChunks, if_pos h, List.flatten_cons, ih, hlen, hdd,
      List.take_append_drop]
  | case2 o h =>
    rw [readChunks, if_neg h]
    simp only [List.length_take, List.length_drop, not_lt] at h
    have h2 : (bytes.drop o).length ≤ CHUNK_SIZE := by
      simp only [List.length_drop]; omega
    simp [List.take_of_length_le h2]

/-- Unfolding step of the read loop when a full-size chunk remains. -/
theorem readChunks_cons (bytes : List Nat) (o : Nat)
    (h : o + CHUNK_SIZE < bytes.length) :
    readChunks bytes o
      = (bytes.drop o).take CHUNK_SIZE :: readChunks bytes (o + CHUNK_SIZE) := by
  have hlen : ((bytes.drop o).take CHUNK_SIZE).length = CHUNK_SIZE := by
    simp only [List.length_take, List.length_drop]; omega
  rw [readChunks, hlen, if_pos h]

/-- Unfolding step of the read loop at the final chunk. -/
theorem readChunks_last (bytes : List Nat) (o : Nat)
    (h : bytes.length ≤ o + CHUNK_SIZE) :
    readChunks bytes o = [(bytes.drop o).take CHUNK_SIZE] := by
  have hlen : ((bytes.drop o).take CHUNK_SIZE).length
      = min CHUNK_SIZE (bytes.length - o) := by
    simp only [List.length_take, List.length_drop]
  rw [readChunks, hlen, if_neg (by omega)]

/-! ## Association-list map lemmas -/

theorem mapGet_cons {α : Type} (p : String × α) (m : List (String × α))
    (k : String) :
    mapGet (p :: m) k = if p.1 == k then some p.2 else mapGet m k := by
  by_cases hp : (p.1 == k) = true
  · simp [mapGet, List.find?_cons, hp]
  · have hp' : (p.1 == k) = false := by simpa using hp
    simp [mapGet, List.find?_cons, hp']

theorem mapSet_cons_ne {α : Type} (p : String × α) (m : List (String × α))
    (k : String) (v : α) (hp : (p.1 == k) = false) :
    mapSet (p :: m) k v = p :: mapSet m k v := by
  have hp2 : ¬ p.1 = k := by simpa using hp
  by_cases hm : (m.any fun q => q.1 == k) = true <;>
    simp [mapSet, hp, hp2, hm]

theorem mapGet_map_replace_self {α : Type} (m : List (String × α))
    (k : String) (v : α) (hany : (m.any fun q => q.1 == k) = true) :
    mapGet (m.map (fun p => if p.1 == k then (k, v) else p)) k = some v := by
  induction m with
  | nil => simp at hany
  | cons p m ih =>
    by_cases hp : p.1 = k
    · simp [hp, mapGet_cons]
    · have hany2 : (m.any fun q => q.1 == k) = true := by
        simpa [List.any_cons, hp] using hany
      simpa [mapGet_cons, hp] using ih hany2

theorem mapGet_map_replace_ne {α : Type} (m : List (String × α))
    (k k' : String) (v : α) (h : k' ≠ k) :
    mapGet (m.map (fun p => if p.1 == k' then (k', v) else p)) k
      = mapGet m k := by
  induction m with
  | nil => rfl
  | cons p m ih =>
    by_cases hp : p.1 = k'
    · have h2 : ¬ p.1 = k := by rw [hp]; exact h
      simpa [mapGet_cons, hp, h, h2] using ih
    · by_cases hpk : p.1 = k
      · have h3 : ¬ k = k' := fun hc => h hc.symm
        simp [mapGet_cons, hp, hpk, h3]
      · simpa [mapGet_cons, hp, hpk] using ih

theorem mapGet_append_single {α : Type} (m : List (String × α))
    (k k' : String) (v : α) :
    mapGet (m ++ [(k', v)]) k
      = if (mapGet m k).isSome then mapGet m k
        else if k' == k then some v else none := by
  induction m with
  | nil => simp [mapGet_cons, mapGet]
  | cons p m ih =>
    by_cases hp : p.1 = k
    · simp [List.cons_append, mapGet_cons, hp]
    · simpa [List.cons_append, mapGet_cons, hp] using ih

theorem mapGet_mapSet_self {α : Type} (m : List (String × α)) (k : String)
    (v : α) : mapGet (mapSet m k v) k = some v := by
  unfold mapSet
  by_cases hany : (m.any fun q => q.1 == k) = true
  · rw [if_pos hany]
    exact mapGet_map_replace_self m k v hany
  · have hany2 : (m.any fun q => q.1 == k) = false := Bool.eq_false_iff.mpr hany
    rw [if_neg (fun hc => by rw [hany2] at hc; exact absurd hc (by decide))]
    rw [mapGet_append_single]
    have hnone : mapGet m k = none := by
      unfold mapGet
      have hall : ∀ p ∈ m, ¬ ((fun q : String × α => q.1 == k) p = true) := by
        intro p hp hc
        have : (m.any fun q => q.1 == k) = true :=
          List.any_eq_true.mpr ⟨p, hp, hc⟩
        rw [this] at hany2
        exact absurd hany2 (by decide)
      rw [List.find?_eq_none.mpr hall]
      rfl
    simp [hnone]

theorem mapGet_mapSet_ne {α : Type} (m : List (String × α)) (k k' : String)
    (v : α) (h : k' ≠ k) : mapGet (mapSet m k' v) k = mapGet m k := by
  unfold mapSet
  by_cases hany : (m.any fun q => q.1 == k') = true
  · rw [if_pos hany]
    exact mapGet_map_replace_ne m k k' v h
  · rw [if_neg (by simpa using hany)]
    rw [mapGet_append_single]
    have h1 : (k' == k) = false := by simpa using h
    cases hg : mapGet m k <;> simp [hg, h1]

theorem mem_mapSet {α : Type} {m : List (String × α)} {k : String} {v : α}
    {p : String × α} (h : p ∈ mapSet m k v) : p ∈ m ∨ p = (k, v) := by
  unfold mapSet at h
  split at h
  · rcases List.mem_map.mp h with ⟨q, hq, hqe⟩
    by_cases hqk : q.1 = k
    · right
      rw [if_pos (by simpa using hqk)] at hqe
      exact hqe.symm
    · left
      rw [if_neg (by simpa using hqk)] at hqe
      exact hqe ▸ hq
  · rcases List.mem_append.mp h with hq | hq
    · exact Or.inl hq
    · right; simpa using hq

theorem mem_mapSet_of_ne {α : Type} {m : List (String × α)} {k : String}
    {v : α} {p : String × α} (h : p ∈ m) (hne : p.1 ≠ k) :
    p ∈ mapSet m k v := by
  unfold mapSet
  split
  · refine List.mem_map.mpr ⟨p, h, ?_⟩
    rw [if_neg (by simpa using hne)]
  · exact List.mem_append.mpr (Or.inl h)

theorem mapGet_mapDelete_self {α : Type} (m : List (String × α))
    (k : String) : mapGet (mapDelete m k) k = none := by
  induction m with
  | nil => rfl
  | cons p m ih =>
    by_cases hp : p.1 = k
    · simpa [mapDelete, List.filter_cons, hp] using ih
    · simpa [mapDelete, List.filter_cons, hp, mapGet_cons] using ih

theorem mem_mapDelete {α : Type} {m : List (String × α)} {k : String}
    {p : String × α} (h : p ∈ mapDelete m k) : p ∈ m :=
  List.mem_of_mem_filter h

/-! ## Stepping lemmas for the message handler -/

theorem runMessages_nil (self : Option String) (now : Nat) (st : RoomState) :
    runMessages self now [] st = st := rfl

theorem runMessages_cons (self : Option String) (now : Nat) (m : PeerData)
    (ms : List PeerData) (st : RoomState) :
    runMessages self now (m :: ms) st
      = runMessages self now ms (handleData self now m st) := rfl

theorem runMessages_append (self : Option String) (now : Nat)
    (l₁ l₂ : List PeerData) (st : RoomState) :
    runMessages self now (l₁ ++ l₂) st
      = runMessages self now l₂ (runMessages self now l₁ st) := by
  simp [runMessages, List.foldl_append]

theorem handleData_metadata_new (self : Option String) (now : Nat)
    (md : FileMetadata) (st : RoomState)
    (hnone : mapGet st.receivedFiles md.fileId = none) :
    handleData self now (.metadata md) st
      = { st with receivedFiles :=
            mapSet st.receivedFiles md.fileId (freshFile md now) } := by
  simp [handleData, hnone]

theorem handleData_chunk_active (self : Option String) (now : Nat)
    (c : List Nat) (i t : Nat) (fid : String) (st : RoomState)
    (f : ReceivedFile) (hget : mapGet st.receivedFiles fid = some f)
    (hc : f.completed = false) :
    handleData self now (.chunk c i t fid) st
      = { st with receivedFiles :=
            mapSet st.receivedFiles fid (chunkStep f c) } := by
  simp [handleData, hget, hc]

theorem handleData_end_active (self : Option String) (now : Nat)
    (fid : String) (st : RoomState) (f : ReceivedFile)
    (hget : mapGet st.receivedFiles fid = some f)
    (hc : f.completed = false) :
    handleData self now (.endMsg fid) st
      = { st with receivedFiles :=
            mapSet st.receivedFiles fid (sealFile f now) } := by
  simp [handleData, hget, hc]

/-! ## Folding chunk updates -/

theorem foldl_chunkStep_metadata (cs : List (List Nat)) (f : ReceivedFile) :
    (cs.foldl chunkStep f).metadata = f.metadata := by
  induction cs generalizing f with
  | nil => rfl
  | cons c cs ih => simpa [chunkStep] using ih (chunkStep f c)

theorem foldl_chunkStep_completed (cs : List (List Nat)) (f : ReceivedFile) :
    (cs.foldl chunkStep f).completed = f.completed := by
  induction cs generalizing f with
  | nil => rfl
  | cons c cs ih => simpa [chunkStep] using ih (chunkStep f c)

theorem foldl_chunkStep_chunks (cs : List (List Nat)) (f : ReceivedFile) :
    (cs.foldl chunkStep f).chunks = f.chunks ++ cs := by
  induction cs generalizing f with
  | nil => simp
  | cons c cs ih =>
    rw [List.foldl_cons, ih (chunkStep f c)]
    simp [chunkStep]

theorem foldl_chunkStep_receivedSize (cs : List (List Nat))
    (f : ReceivedFile) :
    (cs.foldl chunkStep f).receivedSize
      = f.receivedSize + cs.flatten.length := by
  induction cs generalizing f with
  | nil => simp
  | cons c cs ih =>
    rw [List.foldl_cons, ih (chunkStep f c)]
    simp only [chunkStep, List.flatten_cons, List.length_append]
    omega

theorem foldl_chunkStep_progress (cs : List (List Nat)) (f : ReceivedFile)
    (h : cs ≠ []) :
    (cs.foldl chunkStep f).progress
      = (((f.receivedSize : ℚ) + (cs.flatten.length : ℚ))
          / (f.metadata.size : ℚ)) * 100 := by
  induction cs using List.reverseRecOn with
  | nil => exact absurd rfl h
  | append_singleton ds c _ =>
    rw [List.foldl_append]
    simp only [List.foldl_cons, List.foldl_nil, chunkStep,
      foldl_chunkStep_receivedSize, foldl_chunkStep_metadata,
      List.flatten_append, List.flatten_cons, List.flatten_nil,
      List.append_nil, List.length_append]
    push_cast
    ring

/-! ## Characterizing the receiver state along a sender run -/

theorem runChunks_get (self : Option String) (now : Nat) (fid : String)
    (cs : List (List Nat)) (st : RoomState) (f0 : ReceivedFile)
    (hget : mapGet st.receivedFiles fid = some f0)
    (hc : f0.completed = false) :
    mapGet ((runMessages self now
        (cs.map (fun c => PeerData.chunk c 0 0 fid)) st).receivedFiles) fid
      = some (cs.foldl chunkStep f0) := by
  induction cs generalizing st f0 with
  | nil => simpa using hget
  | cons c cs ih =>
    rw [List.map_cons, runMessages_cons,
      handleData_chunk_active self now c 0 0 fid st f0 hget hc]
    have hget2 : mapGet (mapSet st.receivedFiles fid (chunkStep f0 c)) fid
        = some (chunkStep f0 c) := mapGet_mapSet_self _ _ _
    have hc2 : (chunkStep f0 c).completed = false := by
      simpa [chunkStep] using hc
    simpa using ih _ _ hget2 hc2

theorem senderRun_take (self : Option String) (now : Nat)
    (md : FileMetadata) (bytes : List Nat) (st0 : RoomState)
    (hnone : mapGet st0.receivedFiles md.fileId = none)
    (j : Nat) (hj : j ≤ (readChunks bytes 0).length) :
    mapGet ((runMessages self now ((senderMessages md bytes).take (j + 1))
        st0).receivedFiles) md.fileId
      = some (((readChunks bytes 0).take j).foldl chunkStep
          (freshFile md now)) := by
  have htake : (senderMessages md bytes).take (j + 1)
      = PeerData.metadata md
        :: ((readChunks bytes 0).take j).map
            (fun c => PeerData.chunk c 0 0 md.fileId) := by
    rw [senderMessages, List.take_succ_cons]
    congr 1
    rw [List.take_append_of_le_length (by simpa using hj), List.map_take]
  rw [htake, runMessages_cons, handleData_metadata_new self now md st0 hnone]
  exact runChunks_get self now md.fileId _ _ (freshFile md now)
    (mapGet_mapSet_self _ _ _) rfl

theorem senderRun_full (self : Option String) (now : Nat)
    (md : FileMetadata) (bytes : List Nat) (st0 : RoomState)
    (hnone : mapGet st0.receivedFiles md.fileId = none) :
    mapGet ((runMessages self now (senderMessages md bytes)
        st0).receivedFiles) md.fileId
      = some (sealFile ((readChunks bytes 0).foldl chunkStep
          (freshFile md now)) now) := by
  have hsplit : senderMessages md bytes
      = (PeerData.metadata md
          :: (readChunks bytes 0).map (fun c => PeerData.chunk c 0 0 md.fileId))
        ++ [PeerData.endMsg md.fileId] := by
    simp [senderMessages]
  have hmid : mapGet ((runMessages self now
      (PeerData.metadata md
        :: (readChunks bytes 0).map (fun c => PeerData.chunk c 0 0 md.fileId))
      st0).receivedFiles) md.fileId
      = some ((readChunks bytes 0).foldl chunkStep (freshFile md now)) := by
    rw [runMessages_cons, handleData_metadata_new self now md st0 hnone]
    exact runChunks_get self now md.fileId _ _ (freshFile md now)
      (mapGet_mapSet_self _ _ _) rfl
  rw [hsplit, runMessages_append, runMessages_cons, runMessages_nil,
    handleData_end_active self now md.fileId _ _ hmid
      (by rw [foldl_chunkStep_completed]; rfl)]
  exact mapGet_mapSet_self _ _ _

theorem readChunks_ne_nil (bytes : List Nat) (o : Nat) :
    readChunks bytes o ≠ [] := by
  rw [readChunks]
  split <;> simp

theorem flatten_take_le (l : List (List Nat)) (j : Nat) :
    (l.take j).flatten.length ≤ l.flatten.length := by
  conv_rhs => rw [← List.take_append_drop j l]
  rw [List.flatten_append, List.length_append]
  omega

theorem flatten_take_succ_ge (l : List (List Nat)) (j : Nat) :
    (l.take j).flatten.length ≤ (l.take (j + 1)).flatten.length := by
  have h := flatten_take_le (l.take (j + 1)) j
  rwa [List.take_take, min_eq_left (by omega)] at h

theorem readChunks_lengths_150000 (bytes : List Nat)
    (h : bytes.length = 150000) :
    (readChunks bytes 0).map List.length = [65536, 65536, 18928] := by
  rw [readChunks_cons bytes 0 (by rw [h]; norm_num [CHUNK_SIZE]),
    show (0 : Nat) + CHUNK_SIZE = 65536 by norm_num [CHUNK_SIZE],
    readChunks_cons bytes 65536 (by rw [h]; norm_num [CHUNK_SIZE]),
    show (65536 : Nat) + CHUNK_SIZE = 131072 by norm_num [CHUNK_SIZE],
    readChunks_last bytes 131072 (by rw [h]; norm_num [CHUNK_SIZE])]
  simp only [List.map_cons, List.map_nil, List.length_take,
    List.length_drop, h]
  norm_num [CHUNK_SIZE, Nat.min_def]

/-! ## The claims -/

/-- C1: for every file sent with the fixed 64 KiB chunking process, the
receiver's final artifact (the sealed transfer's Blob) is the byte-for-byte
concatenation of the chunks in send order and equals the original bytes,
whose length is the announced size S; in particular a 150,000-byte file is
split into chunks of 65536, 65536 and 18928 bytes. -/
theorem c1_chunk_reassembly (self : Option String) (now : Nat)
    (md : FileMetadata) (bytes : List Nat) (st0 : RoomState)
    (hnone : mapGet st0.receivedFiles md.fileId = none)
    (hsize : md.size = bytes.length) :
    (∃ f, mapGet ((runMessages self now (senderMessages md bytes)
          st0).receivedFiles) md.fileId = some f
        ∧ f.completed = true
        ∧ f.chunks = readChunks bytes 0
        ∧ f.downloadUrl = some f.chunks.flatten
        ∧ f.chunks.flatten = bytes
        ∧ f.chunks.flatten.length = md.size
        ∧ f.receivedSize = md.size)
    ∧ (bytes.length = 150000 →
        (readChunks bytes 0).map List.length = [65536, 65536, 18928]) := by
  have hart : ((readChunks bytes 0).foldl chunkStep
      (freshFile md now)).chunks.flatten = bytes := by
    simp only [foldl_chunkStep_chunks, freshFile, List.nil_append]
    simpa using readChunks_flatten bytes 0
  constructor
  · refine ⟨_, senderRun_full self now md bytes st0 hnone, rfl, ?_, ?_, ?_,
      ?_, ?_⟩
    · rw [sealFile]
      simp [foldl_chunkStep_chunks, freshFile]
    · rw [sealFile]
    · rw [sealFile]
      exact hart
    · rw [sealFile]
      simp only
      rw [hart, hsize]
    · rw [sealFile]
      simp only [foldl_chunkStep_receivedSize, freshFile, Nat.zero_add]
      rw [readChunks_flatten]
      simpa using hsize.symm
  · intro h150
    exact readChunks_lengths_150000 bytes h150

/-- Witness for C1 at a concrete three-byte file. -/
theorem c1_chunk_reassembly_witness :
    ((⟨"a.txt", 3, "text/plain", "s", "Sam", "fid1"⟩ : FileMetadata).size
        = ([10, 20, 30] : List Nat).length)
    ∧ ((∃ f, mapGet ((runMessages none 0
          (senderMessages ⟨"a.txt", 3, "text/plain", "s", "Sam", "fid1"⟩
            [10, 20, 30]) ⟨[], [], []⟩).receivedFiles) "fid1" = some f
        ∧ f.completed = true
        ∧ f.chunks = readChunks [10, 20, 30] 0
        ∧ f.downloadUrl = some f.chunks.flatten
        ∧ f.chunks.flatten = [10, 20, 30]
        ∧ f.chunks.flatten.length = 3
        ∧ f.receivedSize = 3)
      ∧ (([10, 20, 30] : List Nat).length = 150000 →
          (readChunks [10, 20, 30] 0).map List.length
            = [65536, 65536, 18928])) :=
  ⟨rfl, c1_chunk_reassembly none 0 ⟨"a.txt", 3, "text/plain", "s", "Sam", "fid1"⟩
    [10, 20, 30] ⟨[], [], []⟩ rfl rfl⟩

/-- C2: once the `IncomingTransfer` for a `fileId` is sealed (completed),
processing any further `metadata`, `chunk` or `end` message carrying that
`fileId` leaves the receiver state unchanged — no bytes appended, no state
transition (so in particular the stored progress stays at its value,
100 after a seal via `end`). -/
theorem c2_sealed_idempotent (self : Option String) (now : Nat)
    (st : RoomState) (fid : String) (f : ReceivedFile) (msg : PeerData)
    (hget : mapGet st.receivedFiles fid = some f)
    (hc : f.completed = true)
    (hmsg : msgFileId msg = some fid) :
    handleData self now msg st = st := by
  cases msg with
  | metadata md =>
    have hf : md.fileId = fid := by simpa [msgFileId] using hmsg
    simp [handleData, hf, hget]
  | chunk c i t g =>
    have hf : g = fid := by simpa [msgFileId] using hmsg
    subst hf
    simp [handleData, hget, hc]
  | endMsg g =>
    have hf : g = fid := by simpa [msgFileId] using hmsg
    subst hf
    simp [handleData, hget, hc]
  | join u => simp [msgFileId] at hmsg
  | userList l => simp [msgFileId] at hmsg
  | userJoined u => simp [msgFileId] at hmsg
  | userLeft p => simp [msgFileId] at hmsg

/-- Witness for C2: a sealed one-byte transfer ignores a duplicate `end`. -/
theorem c2_sealed_idempotent_witness :
    (mapGet [("fid2", (⟨⟨"n", 1, "t", "s", "S", "fid2"⟩, 100, [[9]], 1,
        some [9], true, none, 0, some 1⟩ : ReceivedFile))] "fid2"
      = some ⟨⟨"n", 1, "t", "s", "S", "fid2"⟩, 100, [[9]], 1,
          some [9], true, none, 0, some 1⟩)
    ∧ ((⟨⟨"n", 1, "t", "s", "S", "fid2"⟩, 100, [[9]], 1,
        some [9], true, none, 0, some 1⟩ : ReceivedFile).completed = true)
    ∧ msgFileId (PeerData.endMsg "fid2") = some "fid2"
    ∧ handleData none 5 (PeerData.endMsg "fid2")
        ⟨[], [], [("fid2", ⟨⟨"n", 1, "t", "s", "S", "fid2"⟩, 100, [[9]], 1,
          some [9], true, none, 0, some 1⟩)]⟩
      = ⟨[], [], [("fid2", ⟨⟨"n", 1, "t", "s", "S", "fid2"⟩, 100, [[9]], 1,
          some [9], true, none, 0, some 1⟩)]⟩ :=
  ⟨by decide, rfl, rfl,
    c2_sealed_idempotent none 5 _ "fid2"
      ⟨⟨"n", 1, "t", "s", "S", "fid2"⟩, 100, [[9]], 1,
        some [9], true, none, 0, some 1⟩
      (PeerData.endMsg "fid2") (by decide) rfl rfl⟩

/-- C3 (amended): along any prefix of a single sender message sequence for
a `fileId` the receiver had no entry for, an `IncomingTransfer` satisfies
`receivedBytes ≤ metadata.size` while unsealed and
`receivedBytes = metadata.size` exactly once sealed. (The bound is not an
invariant of all reachable states: see the resend counterexample below.) -/
theorem c3_received_size_bound (self : Option String) (now : Nat)
    (md : FileMetadata) (bytes : List Nat) (st0 : RoomState) (k : Nat)
    (f : ReceivedFile)
    (hnone : mapGet st0.receivedFiles md.fileId = none)
    (hsize : md.size = bytes.length)
    (hget : mapGet ((runMessages self now
        ((senderMessages md bytes).take k) st0).receivedFiles) md.fileId
      = some f) :
    (f.completed = false → f.receivedSize ≤ md.size)
    ∧ (f.completed = true → f.receivedSize = md.size) := by
  rcases k with _ | j
  · rw [List.take_zero, runMessages_nil, hnone] at hget
    cases hget
  · by_cases hj : j ≤ (readChunks bytes 0).length
    · rw [senderRun_take self now md bytes st0 hnone j hj] at hget
      obtain rfl := (Option.some.inj hget).symm
      constructor
      · intro _
        rw [foldl_chunkStep_receivedSize]
        have h1 : ((readChunks bytes 0).take j).flatten.length
            ≤ (readChunks bytes 0).flatten.length := flatten_take_le _ _
        rw [readChunks_flatten, List.drop_zero] at h1
        simpa [freshFile, hsize] using h1
      · intro hc
        rw [foldl_chunkStep_completed] at hc
        simp [freshFile] at hc
    · push_neg at hj
      have hlen : (senderMessages md bytes).length
          = (readChunks bytes 0).length + 2 := by
        simp only [senderMessages, List.length_cons, List.length_append,
          List.length_map, List.length_nil]
      have hfull : (senderMessages md bytes).take (j + 1)
          = senderMessages md bytes := by
        apply List.take_of_length_le
        rw [hlen]
        omega
      rw [hfull, senderRun_full self now md bytes st0 hnone] at hget
      obtain rfl := (Option.some.inj hget).symm
      constructor
      · intro hc
        simp [sealFile] at hc
      · intro _
        show ((readChunks bytes 0).foldl chunkStep
          (freshFile md now)).receivedSize = md.size
        rw [foldl_chunkStep_receivedSize, readChunks_flatten, List.drop_zero]
        simp [freshFile, hsize]

/-- Witness for C3 after the metadata and first chunk of a two-byte
file. -/
theorem c3_received_size_bound_witness :
    (mapGet (⟨[], [], []⟩ : RoomState).receivedFiles "fid3" = none)
    ∧ ((⟨"b", 2, "t", "s", "S", "fid3"⟩ : FileMetadata).size
        = ([1, 2] : List Nat).length)
    ∧ ∃ f, mapGet ((runMessages none 0
          ((senderMessages ⟨"b", 2, "t", "s", "S", "fid3"⟩ [1, 2]).take 2)
          ⟨[], [], []⟩).receivedFiles) "fid3" = some f
        ∧ (f.completed = false → f.receivedSize
            ≤ (⟨"b", 2, "t", "s", "S", "fid3"⟩ : FileMetadata).size)
        ∧ (f.completed = true → f.receivedSize
            = (⟨"b", 2, "t", "s", "S", "fid3"⟩ : FileMetadata).size) := by
  refine ⟨rfl, rfl, ?_⟩
  have hj : 1 ≤ (readChunks [1, 2] 0).length :=
    List.length_pos.mpr (readChunks_ne_nil _ _)
  have hget := senderRun_take none 0 ⟨"b", 2, "t", "s", "S", "fid3"⟩ [1, 2]
    ⟨[], [], []⟩ rfl 1 hj
  obtain ⟨h1, h2⟩ := c3_received_size_bound none 0
    ⟨"b", 2, "t", "s", "S", "fid3"⟩ [1, 2] ⟨[], [], []⟩ 2 _ rfl rfl hget
  exact ⟨_, hget, h1, h2⟩

/-- C3 is false as stated over all reachable receiver states: a receiver
that got only `[metadata, chunk]` of a 2-byte file (the channel closed
before `end`, Scenario C — the close handler never touches
`receivedFiles`) and then processes a resend of the same `fileId`
(`sendSingleFile(file, true, fileId)`) appends the duplicate chunk to the
partial unsealed entry — the metadata branch does not reset it and the
chunk branch has no size check. Before sealing, `receivedSize = 4`
exceeds `metadata.size = 2`; the resent `end` then seals the transfer
with `receivedSize = 4 ≠ 2`. -/
theorem c3_counterexample :
    (∃ f, mapGet ((runMessages none 0
        (((senderMessages ⟨"c", 2, "t", "s", "S", "f3"⟩ [5, 6]).take 2)
          ++ ((senderMessages ⟨"c", 2, "t", "s", "S", "f3"⟩ [5, 6]).take 2))
        ⟨[], [], []⟩).receivedFiles) "f3" = some f
      ∧ f.completed = false ∧ f.metadata.size < f.receivedSize)
    ∧ (∃ f, mapGet ((runMessages none 0
        (((senderMessages ⟨"c", 2, "t", "s", "S", "f3"⟩ [5, 6]).take 2)
          ++ (senderMessages ⟨"c", 2, "t", "s", "S", "f3"⟩ [5, 6]))
        ⟨[], [], []⟩).receivedFiles) "f3" = some f
      ∧ f.completed = true ∧ f.receivedSize ≠ f.metadata.size) := by
  have hrc : readChunks [5, 6] 0 = [[5, 6]] := by
    rw [readChunks_last [5, 6] 0 (by norm_num [CHUNK_SIZE])]
    rw [List.drop_zero, List.take_of_length_le (by norm_num [CHUNK_SIZE])]
  have hmsgs : senderMessages ⟨"c", 2, "t", "s", "S", "f3"⟩ [5, 6]
      = [PeerData.metadata ⟨"c", 2, "t", "s", "S", "f3"⟩,
         PeerData.chunk [5, 6] 0 0 "f3", PeerData.endMsg "f3"] := by
    rw [senderMessages, hrc]
    rfl
  rw [hmsgs]
  constructor
  · exact ⟨chunkStep (chunkStep
      (freshFile ⟨"c", 2, "t", "s", "S", "f3"⟩ 0) [5, 6]) [5, 6],
      rfl, rfl, by decide⟩
  · exact ⟨sealFile (chunkStep (chunkStep
      (freshFile ⟨"c", 2, "t", "s", "S", "f3"⟩ 0) [5, 6]) [5, 6]) 0,
      rfl, rfl, by decide⟩

theorem take_ne_nil_of_ne_nil {α : Type} (l : List α) (j : Nat)
    (hl : l ≠ []) (hj : j ≠ 0) : l.take j ≠ [] := by
  cases l with
  | nil => exact absurd rfl hl
  | cons a l =>
    cases j with
    | zero => exact absurd rfl hj
    | succ j => simp

/-- The stored percentage after the metadata and the first `j ≥ 1` chunks
of a sender run. -/
theorem senderState_progress (md : FileMetadata) (now : Nat)
    (bytes : List Nat) (j : Nat) (hj1 : 1 ≤ j) :
    (((readChunks bytes 0).take j).foldl chunkStep (freshFile md now)).progress
      = ((((readChunks bytes 0).take j).flatten.length : ℚ)
          / (md.size : ℚ)) * 100 := by
  rw [foldl_chunkStep_progress _ _
    (take_ne_nil_of_ne_nil _ _ (readChunks_ne_nil _ _) (by omega))]
  simp [freshFile]

theorem percent_mono (a b c : ℚ) (ha : 0 ≤ a) (hab : a ≤ b) (hc : 0 ≤ c) :
    a / c * 100 ≤ b / c * 100 := by
  rcases hc.eq_or_lt with hc0 | hcpos
  · rw [← hc0, div_zero, div_zero]
  · exact mul_le_mul_of_nonneg_right
      ((div_le_div_right hcpos).mpr hab) (by norm_num)

theorem percent_le_100 (a c : ℚ) (ha : 0 ≤ a) (hac : a ≤ c) :
    a / c * 100 ≤ 100 := by
  rcases (le_trans ha hac).eq_or_lt with hc0 | hcpos
  · rw [← hc0, div_zero, zero_mul]
    norm_num
  · calc a / c * 100 ≤ 1 * 100 :=
        mul_le_mul_of_nonneg_right ((div_le_one hcpos).mpr hac) (by norm_num)
    _ = 100 := by norm_num

/-- C4 is false as stated: after the metadata and the single chunk of a
one-byte file — with the `end` message not yet processed — the stored
percent-complete is already exactly 100 while the transfer is unsealed. -/
theorem c4_counterexample :
    ∃ f, mapGet ((runMessages none 0
        ((senderMessages ⟨"a", 1, "t", "s", "S", "f1"⟩ [7]).take 2)
        ⟨[], [], []⟩).receivedFiles) "f1" = some f
      ∧ f.progress = 100 ∧ f.completed = false := by
  have hrc : readChunks [7] 0 = [[7]] := by
    rw [readChunks_last [7] 0 (by norm_num [CHUNK_SIZE])]
    rw [List.drop_zero, List.take_of_length_le (by norm_num [CHUNK_SIZE])]
  have htake : (senderMessages ⟨"a", 1, "t", "s", "S", "f1"⟩ [7]).take 2
      = [PeerData.metadata ⟨"a", 1, "t", "s", "S", "f1"⟩,
         PeerData.chunk [7] 0 0 "f1"] := by
    rw [senderMessages, hrc]
    rfl
  rw [htake]
  refine ⟨chunkStep (freshFile ⟨"a", 1, "t", "s", "S", "f1"⟩ 0) [7],
    rfl, ?_, rfl⟩
  show (((0 : ℚ) + (1 : ℚ)) / ((1 : Nat) : ℚ)) * 100 = 100
  norm_num

/-- C4 (amended): along the sender's message sequence the reported
percent-complete is non-decreasing and the sealed transfer reports exactly
100; but 100 is reached already when the final chunk arrives (for any file
of non-zero size), before the `end` message seals the transfer. -/
theorem c4_progress_monotone (self : Option String) (now : Nat)
    (md : FileMetadata) (bytes : List Nat) (st0 : RoomState) (k : Nat)
    (hnone : mapGet st0.receivedFiles md.fileId = none)
    (hsize : md.size = bytes.length) :
    (reportedProgress (runMessages self now
        ((senderMessages md bytes).take k) st0) md.fileId
      ≤ reportedProgress (runMessages self now
          ((senderMessages md bytes).take (k + 1)) st0) md.fileId)
    ∧ (∃ f, mapGet ((runMessages self now (senderMessages md bytes)
          st0).receivedFiles) md.fileId = some f
        ∧ f.completed = true ∧ f.progress = 100)
    ∧ (md.size ≠ 0 →
        ∃ f, mapGet ((runMessages self now
            ((senderMessages md bytes).take
              ((readChunks bytes 0).length + 1)) st0).receivedFiles)
          md.fileId = some f
        ∧ f.completed = false ∧ f.progress = 100) := by
  have hn1 : 1 ≤ (readChunks bytes 0).length :=
    List.length_pos.mpr (readChunks_ne_nil _ _)
  have hlen : (senderMessages md bytes).length
      = (readChunks bytes 0).length + 2 := by
    simp only [senderMessages, List.length_cons, List.length_append,
      List.length_map, List.length_nil]
  have hSn : (readChunks bytes 0).flatten.length = bytes.length := by
    rw [readChunks_flatten, List.drop_zero]
  refine ⟨?_, ?_, ?_⟩
  · -- monotonicity from step k to step k+1
    rcases k with _ | j
    · rw [List.take_zero, runMessages_nil]
      rw [reportedProgress, hnone]
      rw [reportedProgress,
        senderRun_take self now md bytes st0 hnone 0 (by omega)]
      simp [freshFile]
    · by_cases hj : j + 1 ≤ (readChunks bytes 0).length
      · rw [reportedProgress,
          senderRun_take self now md bytes st0 hnone j (by omega),
          reportedProgress,
          senderRun_take self now md bytes st0 hnone (j + 1) hj]
        simp only [Option.map_some', Option.getD_some]
        rcases Nat.eq_zero_or_pos j with rfl | hj1
        · simp only [List.take_zero, List.foldl_nil]
          rw [senderState_progress md now bytes 1 le_rfl]
          have hpos : (0 : ℚ)
              ≤ ((((readChunks bytes 0).take 1).flatten.length : ℚ)
                / (md.size : ℚ)) * 100 :=
            mul_nonneg (div_nonneg (Nat.cast_nonneg _) (Nat.cast_nonneg _))
              (by norm_num)
          calc (freshFile md now).progress = 0 := rfl
          _ ≤ _ := hpos
        · rw [senderState_progress md now bytes j hj1,
            senderState_progress md now bytes (j + 1) (by omega)]
          exact percent_mono _ _ _ (Nat.cast_nonneg _)
            (Nat.cast_le.mpr (flatten_take_succ_ge _ _)) (Nat.cast_nonneg _)
      · push_neg at hj
        by_cases hjn : j = (readChunks bytes 0).length
        · subst hjn
          rw [reportedProgress,
            senderRun_take self now md bytes st0 hnone _ le_rfl]
          have hfull : (senderMessages md bytes).take
              ((readChunks bytes 0).length + 1 + 1)
              = senderMessages md bytes :=
            List.take_of_length_le (by omega)
          rw [reportedProgress, hfull,
            senderRun_full self now md bytes st0 hnone]
          simp only [Option.map_some', Option.getD_some]
          rw [senderState_progress md now bytes _ hn1, List.take_length]
          have hle : ((readChunks bytes 0).flatten.length : ℚ)
              ≤ (md.size : ℚ) := by
            rw [hSn, hsize]
          have h100 := percent_le_100 _ _
            (Nat.cast_nonneg ((readChunks bytes 0).flatten.length)) hle
          have hseal : (sealFile ((readChunks bytes 0).foldl chunkStep
              (freshFile md now)) now).progress = 100 := rfl
          rw [hseal]
          exact h100
        · have hj2 : (readChunks bytes 0).length + 2 ≤ j + 1 := by omega
          have hfull1 : (senderMessages md bytes).take (j + 1)
              = senderMessages md bytes :=
            List.take_of_length_le (by omega)
          have hfull2 : (senderMessages md bytes).take (j + 1 + 1)
              = senderMessages md bytes :=
            List.take_of_length_le (by omega)
          rw [reportedProgress, hfull1,
            senderRun_full self now md bytes st0 hnone,
            reportedProgress, hfull2,
            senderRun_full self now md bytes st0 hnone]
  · -- the sealed transfer reports 100
    exact ⟨_, senderRun_full self now md bytes st0 hnone, rfl, rfl⟩
  · -- 100 is already reported after the last chunk, before `end`
    intro hsz
    refine ⟨_, senderRun_take self now md bytes st0 hnone _ le_rfl, ?_, ?_⟩
    · rw [foldl_chunkStep_completed]
      rfl
    · rw [senderState_progress md now bytes _ hn1, List.take_length, hSn,
        ← hsize, div_self (by exact_mod_cast hsz), one_mul]

/-- Witness for C4 (amended) on a one-byte file at step 1. -/
theorem c4_progress_monotone_witness :
    (mapGet (⟨[], [], []⟩ : RoomState).receivedFiles "f1" = none)
    ∧ ((⟨"a", 1, "t", "s", "S", "f1"⟩ : FileMetadata).size
        = ([7] : List Nat).length)
    ∧ ((reportedProgress (runMessages none 0
          ((senderMessages ⟨"a", 1, "t", "s", "S", "f1"⟩ [7]).take 1)
          ⟨[], [], []⟩) "f1"
        ≤ reportedProgress (runMessages none 0
            ((senderMessages ⟨"a", 1, "t", "s", "S", "f1"⟩ [7]).take 2)
            ⟨[], [], []⟩) "f1")
      ∧ (∃ f, mapGet ((runMessages none 0
            (senderMessages ⟨"a", 1, "t", "s", "S", "f1"⟩ [7])
            ⟨[], [], []⟩).receivedFiles) "f1" = some f
          ∧ f.completed = true ∧ f.progress = 100)
      ∧ ((1 : Nat) ≠ 0 →
          ∃ f, mapGet ((runMessages none 0
              ((senderMessages ⟨"a", 1, "t", "s", "S", "f1"⟩ [7]).take
                ((readChunks [7] 0).length + 1))
              ⟨[], [], []⟩).receivedFiles) "f1" = some f
          ∧ f.completed = false ∧ f.progress = 100)) :=
  ⟨rfl, rfl,
    c4_progress_monotone none 0 ⟨"a", 1, "t", "s", "S", "f1"⟩ [7]
      ⟨[], [], []⟩ 1 rfl rfl⟩

/-! ## Roster merge (`user-list`) -/

theorem mapGet_foldl_setUsers_isSome (l : List RoomUser)
    (m : List (String × RoomUser)) (k : String) :
    (mapGet (l.foldl (fun acc u => mapSet acc u.peerId u) m) k).isSome
      ↔ (mapGet m k).isSome ∨ ∃ u ∈ l, u.peerId = k := by
  induction l generalizing m with
  | nil => simp
  | cons u l ih =>
    rw [List.foldl_cons, ih]
    by_cases hk : u.peerId = k
    · subst hk
      rw [mapGet_mapSet_self]
      simp
    · rw [mapGet_mapSet_ne _ _ _ _ hk]
      simp only [List.mem_cons]
      constructor
      · rintro (h | ⟨v, hv, hvk⟩)
        · exact Or.inl h
        · exact Or.inr ⟨v, Or.inr hv, hvk⟩
      · rintro (h | ⟨v, rfl | hv, hvk⟩)
        · exact Or.inl h
        · exact absurd hvk hk
        · exact Or.inr ⟨v, hv, hvk⟩

theorem foldl_setUsers_consistent (l : List RoomUser)
    (m : List (String × RoomUser))
    (hm : ∀ p ∈ m, (p.2 : RoomUser).peerId = p.1) :
    ∀ p ∈ l.foldl (fun acc u => mapSet acc u.peerId u) m,
      (p.2 : RoomUser).peerId = p.1 := by
  induction l generalizing m with
  | nil => exact hm
  | cons u l ih =>
    rw [List.foldl_cons]
    apply ih
    intro p hp
    rcases mem_mapSet hp with h | h
    · exact hm p h
    · rw [h]

theorem mapGet_isSome_iff_mem (m : List (String × RoomUser)) (k : String)
    (hm : ∀ p ∈ m, (p.2 : RoomUser).peerId = p.1) :
    (mapGet m k).isSome
      ↔ ∃ v ∈ m.map Prod.snd, (v : RoomUser).peerId = k := by
  induction m with
  | nil => simp [mapGet]
  | cons p m ih =>
    have hm2 : ∀ q ∈ m, (q.2 : RoomUser).peerId = q.1 :=
      fun q hq => hm q (List.mem_cons_of_mem _ hq)
    by_cases hp : p.1 = k
    · rw [mapGet_cons, if_pos (by simpa using hp)]
      constructor
      · intro _
        exact ⟨p.2, List.mem_map.mpr ⟨p, List.mem_cons_self _ _, rfl⟩,
          by rw [hm p (List.mem_cons_self _ _)]; exact hp⟩
      · intro _
        rfl
    · rw [mapGet_cons, if_neg (by simpa using hp), ih hm2]
      simp only [List.map_cons, List.mem_cons]
      constructor
      · rintro ⟨v, hv, hvk⟩
        exact ⟨v, Or.inr hv, hvk⟩
      · rintro ⟨v, rfl | hv, hvk⟩
        · rw [hm p (List.mem_cons_self _ _)] at hvk
          exact absurd hvk hp
        · exact ⟨v, hv, hvk⟩

/-- C9: after a `user-list` message the roster is, by `peerId`, exactly
the union of the previous roster and the received list minus self: every
previously known member is still present, every listed non-self member is
present, and nobody else is. -/
theorem c9_user_list_merge (self : Option String) (now : Nat)
    (st : RoomState) (payload : List RoomUser) (pid : String) :
    ((∃ v ∈ (handleData self now (.userList payload) st).users,
        (v : RoomUser).peerId = pid)
      ↔ ((∃ u ∈ st.users, (u : RoomUser).peerId = pid)
        ∨ (∃ u ∈ payload, (u : RoomUser).peerId = pid
            ∧ some u.peerId ≠ self))) := by
  show ((∃ v ∈ ((payload.filter (fun u => !(some u.peerId == self))).foldl
      (fun m u => mapSet m u.peerId u)
      (st.users.foldl (fun m u => mapSet m u.peerId u) [])).map Prod.snd,
        (v : RoomUser).peerId = pid) ↔ _)
  have hbase : ∀ p ∈ st.users.foldl (fun m u => mapSet m u.peerId u)
      ([] : List (String × RoomUser)), (p.2 : RoomUser).peerId = p.1 :=
    foldl_setUsers_consistent _ _ (by simp)
  have hcons := foldl_setUsers_consistent
    (payload.filter (fun u => !(some u.peerId == self))) _ hbase
  rw [← mapGet_isSome_iff_mem _ pid hcons,
    mapGet_foldl_setUsers_isSome, mapGet_foldl_setUsers_isSome]
  constructor
  · rintro ((h | ⟨u, hu, huk⟩) | ⟨u, hu, huk⟩)
    · simp [mapGet] at h
    · exact Or.inl ⟨u, hu, huk⟩
    · rcases List.mem_filter.mp hu with ⟨hup, hself⟩
      refine Or.inr ⟨u, hup, huk, ?_⟩
      intro hc
      rw [← hc] at hself
      simp at hself
  · rintro (⟨u, hu, huk⟩ | ⟨u, hu, huk, hself⟩)
    · exact Or.inl (Or.inr ⟨u, hu, huk⟩)
    · refine Or.inr ⟨u, List.mem_filter.mpr ⟨hu, ?_⟩, huk⟩
      simpa using hself

/-! ## Leaving the room -/

/-- C8 is false as stated: when the registry DELETE fails, the explicit
leave has already broadcast `user-left` but the teardown is skipped — the
roster and the connection set are left untouched, not emptied. -/
theorem c8_counterexample :
    (handleLeaveRoom ⟨[⟨"b", "Bea"⟩], [⟨"b", true⟩], []⟩
        (some "a") false).2 = [("b", PeerData.userLeft "a")]
    ∧ (handleLeaveRoom ⟨[⟨"b", "Bea"⟩], [⟨"b", true⟩], []⟩
        (some "a") false).1.users = [⟨"b", "Bea"⟩]
    ∧ (handleLeaveRoom ⟨[⟨"b", "Bea"⟩], [⟨"b", true⟩], []⟩
        (some "a") false).1.connections ≠ [] := by
  refine ⟨rfl, rfl, ?_⟩
  decide

/-- C8 (amended): an explicit leave broadcasts `user-left` with the local
peer id to every open channel and attempts the registry DELETE; only when
the DELETE succeeds are the channels closed and the roster and state reset
to empty — a failed DELETE aborts the teardown, leaving roster and
channels unchanged. -/
theorem c8_leave_room (st : RoomState) (pid : String) (deleteOk : Bool)
    (hpid : pid ≠ "") :
    (∀ c ∈ st.connections, c.isOpen = true →
        (c.peerId, PeerData.userLeft pid)
          ∈ (handleLeaveRoom st (some pid) deleteOk).2)
    ∧ (∀ q ∈ (handleLeaveRoom st (some pid) deleteOk).2,
        q.2 = PeerData.userLeft pid)
    ∧ (deleteOk = true →
        (handleLeaveRoom st (some pid) deleteOk).1.users = []
        ∧ (handleLeaveRoom st (some pid) deleteOk).1.connections = []
        ∧ (handleLeaveRoom st (some pid) deleteOk).1.receivedFiles = [])
    ∧ (deleteOk = false → (handleLeaveRoom st (some pid) deleteOk).1 = st) := by
  have hpid2 : (pid == "") = false := by simpa using hpid
  refine ⟨?_, ?_, ?_, ?_⟩
  · intro c hc hopen
    simp only [handleLeaveRoom, hpid2, Bool.false_eq_true, if_false]
    have hmem : (c.peerId, PeerData.userLeft pid)
        ∈ broadcastToOthers st.connections (PeerData.userLeft pid) none := by
      refine List.mem_filterMap.mpr ⟨c, hc, ?_⟩
      have : (some c.peerId == (none : Option String)) = false := rfl
      simp [this, hopen]
    cases deleteOk <;> simpa using hmem
  · intro q hq
    simp only [handleLeaveRoom, hpid2, Bool.false_eq_true, if_false] at hq
    have hq2 : q ∈ broadcastToOthers st.connections
        (PeerData.userLeft pid) none := by
      cases deleteOk <;> simpa using hq
    rcases List.mem_filterMap.mp hq2 with ⟨c, _, hc⟩
    split at hc
    · cases hc; rfl
    · cases hc
  · intro h
    subst h
    simp [handleLeaveRoom, hpid2]
  · intro h
    subst h
    simp [handleLeaveRoom, hpid2]

/-- Witness for C8 (amended): a successful leave with one open channel. -/
theorem c8_leave_room_witness :
    ("a" : String) ≠ ""
    ∧ ((∀ c ∈ ([⟨"b", true⟩] : List Conn), c.isOpen = true →
        (c.peerId, PeerData.userLeft "a")
          ∈ (handleLeaveRoom ⟨[⟨"b", "Bea"⟩], [⟨"b", true⟩], []⟩
              (some "a") true).2)
      ∧ (∀ q ∈ (handleLeaveRoom ⟨[⟨"b", "Bea"⟩], [⟨"b", true⟩], []⟩
            (some "a") true).2, q.2 = PeerData.userLeft "a")
      ∧ (true = true →
          (handleLeaveRoom ⟨[⟨"b", "Bea"⟩], [⟨"b", true⟩], []⟩
              (some "a") true).1.users = []
          ∧ (handleLeaveRoom ⟨[⟨"b", "Bea"⟩], [⟨"b", true⟩], []⟩
              (some "a") true).1.connections = []
          ∧ (handleLeaveRoom ⟨[⟨"b", "Bea"⟩], [⟨"b", true⟩], []⟩
              (some "a") true).1.receivedFiles = [])
      ∧ (true = false →
          (handleLeaveRoom ⟨[⟨"b", "Bea"⟩], [⟨"b", true⟩], []⟩
              (some "a") true).1
            = ⟨[⟨"b", "Bea"⟩], [⟨"b", true⟩], []⟩)) :=
  ⟨by decide, c8_leave_room ⟨[⟨"b", "Bea"⟩], [⟨"b", true⟩], []⟩ "a" true
    (by decide)⟩

/-! ## Discovery registry claims -/

/-- C5: an entry whose `updatedAt` lies more than one hour before `now` is
absent from the peers list a GET returns. -/
theorem c5_stale_pruned (reg : Registry) (roomId : String) (now : Nat)
    (e : PeerEntry) (hstale : now - e.updatedAt > 1000 * 60 * 60) :
    e ∉ (getPeers reg roomId now).2 := by
  intro hmem
  unfold getPeers at hmem
  simp only at hmem
  unfold pruneRoom at hmem
  cases hroom : mapGet reg roomId with
  | none =>
    rw [hroom] at hmem
    simp [hroom] at hmem
  | some roomPeers =>
    rw [hroom] at hmem
    dsimp only at hmem
    by_cases hempty : (roomPeers.filter
        (fun p => !(decide (now - p.2.updatedAt > 1000 * 60 * 60)))).isEmpty
    · rw [if_pos hempty, mapGet_mapDelete_self] at hmem
      simp at hmem
    · rw [if_neg hempty, mapGet_mapSet_self] at hmem
      simp only [Option.getD_some] at hmem
      rcases List.mem_map.mp hmem with ⟨p, hp, rfl⟩
      have hkeep := List.of_mem_filter hp
      simp only [Bool.not_eq_true', decide_eq_false_iff_not] at hkeep
      exact hkeep hstale

/-- Witness for C5: a one-entry room whose entry is 2 hours stale. -/
theorem c5_stale_pruned_witness :
    ((7200001 : Nat) - (⟨"p", "Pat", 0⟩ : PeerEntry).updatedAt
        > 1000 * 60 * 60)
    ∧ (⟨"p", "Pat", 0⟩ : PeerEntry)
        ∉ (getPeers [("r", [("p", ⟨"p", "Pat", 0⟩)])] "r" 7200001).2 :=
  ⟨by decide,
    c5_stale_pruned [("r", [("p", ⟨"p", "Pat", 0⟩)])] "r" 7200001
      ⟨"p", "Pat", 0⟩ (by decide)⟩

/-- C6 is false as stated: a POST whose `peerId` is present but the empty
string is answered with 400 even though no field is missing (JavaScript
falsiness, `!peerId`). -/
theorem c6_counterexample :
    (postPeers [] "room1" (some "") (some "alice") 0).2 = ApiResp.badRequest
    ∧ (some "" : Option String) ≠ none
    ∧ (some "alice" : Option String) ≠ none := by
  refine ⟨rfl, ?_, ?_⟩ <;> simp

/-- C6 (amended): POST answers 400 exactly when `peerId` or `name` is
missing or empty, otherwise it upserts the entry (fresh `updatedAt`) and
returns the room's current peers; DELETE answers 400 exactly when `peerId`
is missing or empty, otherwise it removes the entry and returns the
room's current peers, in which no entry is keyed by the removed id. -/
theorem c6_post_delete_400 (reg : Registry) (roomId : String)
    (peerId nm : Option String) (now : Nat) :
    ((postPeers reg roomId peerId nm now).2 = ApiResp.badRequest
      ↔ (strFalsy peerId = true ∨ strFalsy nm = true))
    ∧ ((deletePeers reg roomId peerId).2 = ApiResp.badRequest
      ↔ strFalsy peerId = true)
    ∧ (strFalsy peerId = false → strFalsy nm = false →
        ∃ rp, (postPeers reg roomId peerId nm now).2
            = ApiResp.ok (rp.map Prod.snd)
          ∧ mapGet rp (peerId.getD "")
              = some ⟨peerId.getD "", nm.getD "", now⟩
          ∧ mapGet (postPeers reg roomId peerId nm now).1 roomId = some rp)
    ∧ (strFalsy peerId = false →
        ∃ rp, (deletePeers reg roomId peerId).2
            = ApiResp.ok (rp.map Prod.snd)
          ∧ mapGet rp (peerId.getD "") = none) := by
  refine ⟨?_, ?_, ?_, ?_⟩
  · unfold postPeers
    by_cases h1 : strFalsy peerId
    · simp [h1]
    · by_cases h2 : strFalsy nm <;> simp [h1, h2]
  · unfold deletePeers
    by_cases h1 : strFalsy peerId <;> simp [h1]
  · intro h1 h2
    unfold postPeers
    rw [h1, h2]
    simp only [Bool.or_self, Bool.false_eq_true, if_false]
    exact ⟨_, rfl, mapGet_mapSet_self _ _ _, mapGet_mapSet_self _ _ _⟩
  · intro h1
    unfold deletePeers
    rw [h1]
    simp only [Bool.false_eq_true, if_false]
    cases hroom : mapGet reg roomId with
    | none =>
      refine ⟨[], ?_, rfl⟩
      simp [hroom]
    | some roomPeers =>
      by_cases hempty : (mapDelete roomPeers (peerId.getD "")).isEmpty
      · refine ⟨[], ?_, rfl⟩
        simp only [hroom, hempty, if_true]
        rw [mapGet_mapDelete_self]
        rfl
      · refine ⟨mapDelete roomPeers (peerId.getD ""), ?_,
          mapGet_mapDelete_self _ _⟩
        simp only [hroom, hempty, Bool.false_eq_true, if_false]
        rw [mapGet_mapSet_self]
        rfl

/-- Witness for C6 (amended) on a valid POST and DELETE body. -/
theorem c6_post_delete_400_witness :
    (((postPeers [] "r" (some "p") (some "Pat") 5).2 = ApiResp.badRequest
      ↔ (strFalsy (some "p") = true ∨ strFalsy (some "Pat") = true))
    ∧ ((deletePeers [] "r" (some "p")).2 = ApiResp.badRequest
      ↔ strFalsy (some "p") = true)
    ∧ (strFalsy (some "p") = false → strFalsy (some "Pat") = false →
        ∃ rp, (postPeers [] "r" (some "p") (some "Pat") 5).2
            = ApiResp.ok (rp.map Prod.snd)
          ∧ mapGet rp ((some "p").getD "")
              = some ⟨(some "p").getD "", (some "Pat").getD "", 5⟩
          ∧ mapGet (postPeers [] "r" (some "p") (some "Pat") 5).1 "r"
              = some rp)
    ∧ (strFalsy (some "p") = false →
        ∃ rp, (deletePeers [] "r" (some "p")).2
            = ApiResp.ok (rp.map Prod.snd)
          ∧ mapGet rp ((some "p").getD "") = none)) :=
  c6_post_delete_400 [] "r" (some "p") (some "Pat") 5

/-- C7: a GET (which prunes) and a DELETE both preserve the invariant that
no room of the registry holds an empty peer map — a room emptied by
pruning or removal is deleted outright. -/
theorem c7_no_empty_rooms (reg : Registry) (roomId : String) (now : Nat)
    (peerId : Option String) (h : noEmptyRooms reg) :
    noEmptyRooms (getPeers reg roomId now).1
    ∧ noEmptyRooms (deletePeers reg roomId peerId).1 := by
  constructor
  · show noEmptyRooms (pruneRoom reg roomId now)
    unfold pruneRoom
    cases hroom : mapGet reg roomId with
    | none => exact h
    | some roomPeers =>
      dsimp only
      by_cases hempty : (roomPeers.filter
          (fun p => !(decide (now - p.2.updatedAt > 1000 * 60 * 60)))).isEmpty
      · rw [if_pos hempty]
        intro p hp
        exact h p (mem_mapDelete hp)
      · rw [if_neg hempty]
        intro p hp
        rcases mem_mapSet hp with hq | hq
        · exact h p hq
        · rw [hq]
          simpa [List.isEmpty_iff] using hempty
  · unfold deletePeers
    by_cases h1 : strFalsy peerId
    · simpa [h1] using h
    · simp only [h1, Bool.false_eq_true, if_false]
      cases hroom : mapGet reg roomId with
      | none => exact h
      | some roomPeers =>
        by_cases hempty : (mapDelete roomPeers (peerId.getD "")).isEmpty
        · simp only [hempty, if_true]
          intro p hp
          exact h p (mem_mapDelete hp)
        · simp only [hempty, Bool.false_eq_true, if_false]
          intro p hp
          rcases mem_mapSet hp with hq | hq
          · exact h p hq
          · rw [hq]
            simpa [List.isEmpty_iff] using hempty

/-- Witness for C7 on a registry holding one room with a stale entry that
pruning empties, and a DELETE that removes the last entry of a room. -/
theorem c7_no_empty_rooms_witness :
    noEmptyRooms [("r", [("p", ⟨"p", "Pat", 0⟩)])]
    ∧ (noEmptyRooms
        (getPeers [("r", [("p", ⟨"p", "Pat", 0⟩)])] "r" 7200001).1
      ∧ noEmptyRooms
        (deletePeers [("r", [("p", ⟨"p", "Pat", 0⟩)])] "r" (some "p")).1) := by
  refine ⟨?_, c7_no_empty_rooms _ "r" 7200001 (some "p") ?_⟩ <;>
    · intro p hp
      simp only [List.mem_singleton] at hp
      subst hp
      simp

/-- C10: a POST never prunes — a stale entry (more than one hour old) of
the same room, keyed differently from the posted peer, still appears in
the peers list the POST returns. -/
theorem c10_post_no_prune (reg : Registry) (roomId : String)
    (pid nm : String) (now : Nat) (k : String) (e : PeerEntry)
    (hpid : pid ≠ "") (hnm : nm ≠ "")
    (he : (k, e) ∈ (mapGet reg roomId).getD []) (hk : k ≠ pid)
    (hstale : now - e.updatedAt > 1000 * 60 * 60) :
    ∃ l, (postPeers reg roomId (some pid) (some nm) now).2 = ApiResp.ok l
      ∧ e ∈ l := by
  have hf1 : strFalsy (some pid) = false := by simpa [strFalsy] using hpid
  have hf2 : strFalsy (some nm) = false := by simpa [strFalsy] using hnm
  unfold postPeers
  rw [hf1, hf2]
  simp only [Bool.or_self, Bool.false_eq_true, if_false]
  refine ⟨_, rfl, ?_⟩
  exact List.mem_map.mpr ⟨(k, e), mem_mapSet_of_ne he hk, rfl⟩

/-- Witness for C10: the stale entry of the room survives a POST by a
different peer. -/
theorem c10_post_no_prune_witness :
    (("q" : String) ≠ "" ∧ ("Quin" : String) ≠ ""
      ∧ (("p", (⟨"p", "Pat", 0⟩ : PeerEntry))
          ∈ (mapGet [("r", [("p", ⟨"p", "Pat", 0⟩)])] "r").getD [])
      ∧ ("p" : String) ≠ "q"
      ∧ (7200001 : Nat) - (⟨"p", "Pat", 0⟩ : PeerEntry).updatedAt
          > 1000 * 60 * 60)
    ∧ ∃ l, (postPeers [("r", [("p", ⟨"p", "Pat", 0⟩)])] "r"
        (some "q") (some "Quin") 7200001).2 = ApiResp.ok l
      ∧ (⟨"p", "Pat", 0⟩ : PeerEntry) ∈ l :=
  ⟨⟨by decide, by decide, by decide, by decide, by decide⟩,
    c10_post_no_prune [("r", [("p", ⟨"p", "Pat", 0⟩)])] "r" "q" "Quin"
      7200001 "p" ⟨"p", "Pat", 0⟩ (by decide) (by decide) (by decide)
      (by decide) (by decide)⟩

end ShareP2P
